import Mathlib

/-!
Shallow embedding of `gentle/language_model.py` (FST construction for forced
alignment) and proofs about it.

The Python module builds plain-text FST descriptions from word sequences.
We embed the two builders `make_bigram_lm_fst` and `make_transcript_fst`
faithfully: dictionaries with set values become association structures whose
value lists are deduplicated on insertion, node-id dictionaries become lists
recording assignment order, and the serialized byte output is represented by
the exact edge records (source id, target id, labels, weight data) plus the
final-state id, in emission order; the serialized text is a fixed function of
this data.  The error-raising control flow of `make_bigram_language_model`
(try/except/finally) is embedded as explicit propagation over an environment
that says which external operations fail.
-/

namespace Gentle

/-- The out-of-vocabulary sentinel token, `OOV_TERM = '<unk>'` in the source. -/
def OOV_TERM : String := "<unk>"

/-- The keyword arguments of both builders: `conservative`, `disfluency`,
and the `disfluencies` vocabulary list. -/
structure Flags where
  conservative : Bool
  disfluency : Bool
  disfluencies : List String
deriving DecidableEq

/-- All flags off and no disfluency vocabulary (the kwargs defaults). -/
def flagsOff : Flags := ⟨false, false, []⟩

/-- Input shape of both builders: either a flat word sequence (a list of
strings) or a list of word sequences.  This models the duck-typed Python
parameter `word_sequences`. -/
inductive Input where
  | flat (ws : List String)
  | nested (seqs : List (List String))

/-- `if len(word_sequences) == 0 or type(word_sequences[0]) != list:
word_sequences = [word_sequences]` — a flat list is wrapped into a one-element
set, and the empty list is wrapped into `[[]]`. -/
def normalizeInput : Input → List (List String)
  | .flat ws => [ws]
  | .nested [] => [[]]
  | .nested (s :: rest) => s :: rest

/-- The `bigrams` dictionary: word → successor set.  `keys` records the
dictionary's key set; `succ` gives each word's successor list, deduplicated on
insertion (so the list is the set and its length is the set's cardinality). -/
structure Bigrams where
  keys : List String
  succ : String → List String

/-- `bigrams.setdefault(u, set()).add(v)`: ensure `u` is a key and add `v` to
its successor set (no effect when already present). -/
def Bigrams.add (g : Bigrams) (u v : String) : Bigrams where
  keys := if u ∈ g.keys then g.keys else g.keys ++ [u]
  succ := fun w =>
    if w = u then (if v ∈ g.succ u then g.succ u else g.succ u ++ [v])
    else g.succ w

/-- The initial dictionary `{OOV_TERM: set([OOV_TERM])}`. -/
def initBigrams : Bigrams where
  keys := [OOV_TERM]
  succ := fun w => if w = OOV_TERM then [OOV_TERM] else []

/-- The inner loop `for word in word_sequence[1:]` of `make_bigram_lm_fst`
(lines 55–67), followed by the trailing `bigrams.setdefault(prev_word,
set()).add(OOV_TERM)` of line 70.  `prev` is `prev_word`, `rest` the remaining
words. -/
def bigramSeqStep (fl : Flags) : Bigrams → String → List String → Bigrams
  | g, prev, [] => g.add prev OOV_TERM
  | g, prev, word :: rest =>
    let g1 := g.add prev word
    let g2 := if fl.conservative then g1.add prev OOV_TERM else g1
    let g3 :=
      if fl.disfluency then
        let ga := fl.disfluencies.foldl (fun g d => g.add prev d) g2
        fl.disfluencies.foldl (fun g d => g.add d word) ga
      else g2
    bigramSeqStep fl g3 word rest

/-- Processing of one word sequence by `make_bigram_lm_fst` (lines 41–70):
empty sequences are skipped; otherwise the first word becomes a successor of
`OOV_TERM`, the disfluency bookkeeping of lines 48–53 runs, and the pair walk
continues with `bigramSeqStep`. -/
def bigramAddSeq (fl : Flags) (g : Bigrams) (ws : List String) : Bigrams :=
  match ws with
  | [] => g
  | prev :: rest =>
    let g1 := g.add OOV_TERM prev
    let g2 :=
      if fl.disfluency then
        let ga := fl.disfluencies.foldl (fun g d => g.add OOV_TERM d) g1
        fl.disfluencies.foldl (fun g d => (g.add d prev).add d OOV_TERM) ga
      else g1
    bigramSeqStep fl g2 prev rest

/-- The `bigrams` dictionary after the whole first loop of
`make_bigram_lm_fst`. -/
def buildBigrams (fl : Flags) (seqs : List (List String)) : Bigrams :=
  seqs.foldl (bigramAddSeq fl) initBigrams

/-- Position of `w` in the node-id assignment list (0-based), `none` when
unassigned. -/
def nodeIdx : List String → String → Option ℕ
  | [], _ => none
  | x :: xs, w => if w = x then some 0 else (nodeIdx xs w).map (· + 1)

/-- The node id of word `w` given the assignment-order list `ids`: ids are
`1, 2, 3, …` in order of first use, as produced by `get_node_id`. -/
def wordIdOf (ids : List String) (w : String) : Option ℕ :=
  (nodeIdx ids w).map (· + 1)

/-- `get_node_id(word)`: return the already-assigned id, or assign the next
one (`len(node_ids) + 1`) and record it. -/
def getNodeId (ids : List String) (w : String) : ℕ × List String :=
  match nodeIdx ids w with
  | some i => (i + 1, ids)
  | none => (ids.length + 1, ids ++ [w])

/-- Python string comparison (`<` on code points), on the character lists. -/
def charListLt : List Char → List Char → Bool
  | [], [] => false
  | [], _ :: _ => true
  | _ :: _, [] => false
  | a :: as, b :: bs =>
    if a.toNat < b.toNat then true
    else if b.toNat < a.toNat then false
    else charListLt as bs

/-- `a <= b` in Python string order. -/
def strLe (a b : String) : Bool := !(charListLt b.data a.data)

/-- `sorted(...)` on a list of strings (ascending code-point order). -/
def sortStrings (l : List String) : List String :=
  l.insertionSort (fun a b => strLe a b = true)

/-- One output line of `make_bigram_lm_fst`:
`'%d    %d    %s    %s    %f' % (from_id, to_id, to_word, to_word, weight)`.
The printed weight is `-math.log(1.0 / wsucc)` when `0 < wsucc` and `0`
otherwise, where `wsucc = len(successors)` for the source word; we record
`wsucc`, of which the printed weight is a fixed function. -/
structure BEdge where
  src : ℕ
  dst : ℕ
  ilab : String
  olab : String
  wsucc : ℕ
deriving DecidableEq

/-- The data serialized by `make_bigram_lm_fst`: the edge lines in emission
order, the node-id assignment (word list in id order: word at position `i` has
id `i+1`), and the final-state line `'%d    0' % len(node_ids)`. -/
structure BOut where
  edges : List BEdge
  ids : List String
  finalId : ℕ
deriving DecidableEq

/-- The inner emission loop of `make_bigram_lm_fst` (lines 88–91): one edge
per successor, successors visited in sorted order. -/
def bigramEmitSucc (fromId n : ℕ) (vs : List String)
    (st : List BEdge × List String) : List BEdge × List String :=
  vs.foldl (fun st toWord =>
    let r := getNodeId st.2 toWord
    (st.1 ++ [⟨fromId, r.1, toWord, toWord, n⟩], r.2)) st

/-- The outer emission loop of `make_bigram_lm_fst` (lines 79–91): keys
visited in sorted order; for each, its id is assigned, and its successors are
emitted with the weight datum `n = len(successors)`. -/
def bigramEmitKeys (g : Bigrams) (ks : List String)
    (st : List BEdge × List String) : List BEdge × List String :=
  ks.foldl (fun st fromWord =>
    let r := getNodeId st.2 fromWord
    let succs := g.succ fromWord
    bigramEmitSucc r.1 succs.length (sortStrings succs) (st.1, r.2)) st

/-- `make_bigram_lm_fst` (lines 18–95): normalize the input, build the
`bigrams` dictionary, and emit edges over the sorted keys; the final state is
`len(node_ids)`. -/
def makeBigramLmFst (inp : Input) (fl : Flags) : BOut :=
  let seqs := normalizeInput inp
  let g := buildBigrams fl seqs
  let r := bigramEmitKeys g (sortStrings g.keys) ([], [])
  ⟨r.1, r.2, r.2.length⟩

/-- One output tuple of `make_transcript_fst`:
`(from_node, to_node, in_label, out_label, weight)`.  Node ids are Python
ints (they can be ≤ 0 when empty sequences corrupt `end_node_id`), weights
are the exact float values `2.0` and `0.0`. -/
structure TEdge where
  src : Int
  dst : Int
  ilab : String
  olab : String
  w : ℚ
deriving DecidableEq

/-- `end_node_id = sum([len(word_sequence) - 1 for ...]) + 1` (line 122).
Note: no clamping of `len - 1` at 0, so empty sequences contribute `-1`. -/
def endNodeIdOf (seqs : List (List String)) : Int :=
  (seqs.map (fun ws => (ws.length : Int) - 1)).sum + 1

/-- The disfluency/conservative self-loop block emitted at a node `n`
(lines 133–138 and the analogous blocks): one 0-weight loop per disfluency
word when `disfluency`, then a 0-weight `OOV_TERM` loop when `conservative`. -/
def selfLoops (fl : Flags) (n : Int) : List TEdge :=
  (if fl.disfluency then fl.disfluencies.map (fun d => ⟨n, n, d, d, 0⟩) else [])
    ++ (if fl.conservative then [⟨n, n, OOV_TERM, OOV_TERM, 0⟩] else [])

/-- The `for i, word in enumerate(word_sequence)` loop of
`make_transcript_fst` (lines 148–168), on the remaining words: emit the
literal-word edge (weight 2.0) and the parallel `OOV_TERM` edge (weight 0.0)
from `cur` to `nxt`; on the last word, break; on the second-to-last, step to
`(nxt, end)`; otherwise step to `(nxt, next_available)` allocating a fresh id;
after stepping, emit the self-loop block at the new current node.  Returns the
emitted edges and the final `next_available_node_id`. -/
def transcriptWalk (fl : Flags) (endId : Int) :
    List String → Int → Int → Int → List TEdge × Int
  | [], _, _, avail => ([], avail)
  | [w], cur, nxt, avail =>
    ([⟨cur, nxt, w, w, 2⟩, ⟨cur, nxt, OOV_TERM, OOV_TERM, 0⟩], avail)
  | w :: w2 :: rest, cur, nxt, avail =>
    let pair : List TEdge := [⟨cur, nxt, w, w, 2⟩, ⟨cur, nxt, OOV_TERM, OOV_TERM, 0⟩]
    let cur' := nxt
    let nxt' := if rest.isEmpty then endId else avail
    let avail' := if rest.isEmpty then avail else avail + 1
    let tl := transcriptWalk fl endId (w2 :: rest) cur' nxt' avail'
    (pair ++ selfLoops fl cur' ++ tl.1, tl.2)

/-- Processing of one word sequence by `make_transcript_fst` (lines 127–178).
The state is `(output, next_available_node_id, start_node_flag,
end_node_flag)`.  Empty sequences are skipped before any flag block runs;
otherwise the start-node self-loops are emitted once, the chain is walked from
node 0 (with `next_node_id = end` for a one-word sequence, else a fresh id),
and the end-node self-loops are emitted once. -/
def transcriptSeq (fl : Flags) (endId : Int)
    (st : List TEdge × Int × Bool × Bool) (ws : List String) :
    List TEdge × Int × Bool × Bool :=
  match ws with
  | [] => st
  | w :: rest =>
    let (out, avail, startFlag, endFlag) := st
    let startPart := if startFlag then selfLoops fl 0 else []
    let nxt := if rest.isEmpty then endId else avail
    let avail1 := if rest.isEmpty then avail else avail + 1
    let walk := transcriptWalk fl endId (w :: rest) 0 nxt avail1
    let endPart := if endFlag then selfLoops fl endId else []
    (out ++ startPart ++ walk.1 ++ endPart, walk.2, false, false)

/-- The whole sequence loop of `make_transcript_fst`: fold over the
(normalized) sequences from the initial state `([], 1, True, True)`; returns
the emitted edges and the final `next_available_node_id`. -/
def transcriptEmit (fl : Flags) (seqs : List (List String)) :
    List TEdge × Int :=
  let r := seqs.foldl (transcriptSeq fl (endNodeIdOf seqs)) ([], 1, true, true)
  (r.1, r.2.1)

/-- Python's lexicographic tuple comparison used by `output.sort()`:
`(from, to, in_label, out_label, weight)` compared left to right. -/
def tedgeLe (a b : TEdge) : Bool :=
  if a.src ≠ b.src then decide (a.src < b.src)
  else if a.dst ≠ b.dst then decide (a.dst < b.dst)
  else if a.ilab ≠ b.ilab then charListLt a.ilab.data b.ilab.data
  else if a.olab ≠ b.olab then charListLt a.olab.data b.olab.data
  else !(Rat.blt b.w a.w)

/-- `output.sort()` (line 182). -/
def sortTEdges (l : List TEdge) : List TEdge :=
  l.insertionSort (fun a b => tedgeLe a b = true)

/-- `make_transcript_fst` (lines 97–187): normalize, emit, then
`assert end_node_id == next_available_node_id` — on mismatch the function
raises `AssertionError` carrying `f"{end_node_id} vs {next_available_node_id}"`
and produces no output, modelled as `.error (end_node_id,
next_available_node_id)`; on success the sorted edges plus the final-state
line `f"{end_node_id} 0"` are serialized. -/
def makeTranscriptFst (inp : Input) (fl : Flags) :
    Except (Int × Int) (List TEdge × Int) :=
  let seqs := normalizeInput inp
  let r := transcriptEmit fl seqs
  if endNodeIdOf seqs = r.2 then .ok (sortTEdges r.1, endNodeIdOf seqs)
  else .error (endNodeIdOf seqs, r.2)

/-- Exceptions arising in `make_bigram_language_model` (lines 189–229): a
failure of the external `subprocess.check_output` call, or a failure of
`os.unlink` on the temporary input FST file. -/
inductive PyErr where
  | subprocessErr
  | unlinkTxtErr
deriving DecidableEq

/-- Which external operations fail during one run of
`make_bigram_language_model`. -/
structure ExtEnv where
  subprocessFails : Bool
  unlinkHclgFails : Bool
  unlinkTxtFails : Bool

/-- Observable outcome of `make_bigram_language_model`: the returned value or
propagated exception, whether the temporary input FST file was actually
deleted, and whether deletion of the temporary HCLG output file was
attempted. -/
structure MBLMRun where
  result : Except PyErr String
  txtRemoved : Bool
  hclgUnlinkAttempted : Bool

/-- The try/except/finally control flow of `make_bigram_language_model`
(lines 209–229).  The `try` block runs the external compiler; on failure the
`except` block attempts `os.unlink(hclg_filename)` inside a bare
`try/except: pass` (any unlink failure is swallowed) and re-raises the
original exception; the `finally` block runs `os.unlink(txt_fst_file.name)`
unprotected, so if that unlink raises, its exception replaces the pending
result (Python `finally` semantics). -/
def makeBigramLanguageModel (env : ExtEnv) : MBLMRun :=
  let pending : Except PyErr String :=
    if env.subprocessFails then .error .subprocessErr
    else .ok "hclg_filename"
  { result := if env.unlinkTxtFails then .error .unlinkTxtErr else pending
    txtRemoved := !env.unlinkTxtFails
    hclgUnlinkAttempted := env.subprocessFails }

/-- Comparison target for claim C2, following the spec's words (§4.1 steps
1–4 with both flags off): `OOV→OOV` is seeded; each sequence's first word is a
successor of `OOV`; each consecutive pair `(prev, word)` makes `word` a
successor of `prev`; and `OOV` is a successor of each sequence's last word. -/
def specSuccRel (seqs : List (List String)) (u v : String) : Prop :=
  (u = OOV_TERM ∧ v = OOV_TERM)
    ∨ (∃ ws ∈ seqs, ws ≠ [] ∧ u = OOV_TERM ∧ v = ws.headD "")
    ∨ (∃ ws ∈ seqs, ∃ l1 l2, ws = l1 ++ u :: v :: l2)
    ∨ (∃ ws ∈ seqs, ws ≠ [] ∧ u = ws.getLastD "" ∧ v = OOV_TERM)

/-- The contribution of a single word sequence to the bigram successor
relation with both flags off: first word after `OOV`, consecutive pairs, and
`OOV` after the last word.  (Empty sequences contribute nothing.) -/
def seqRel (ws : List String) (u v : String) : Prop :=
  ws ≠ [] ∧ ((u = OOV_TERM ∧ v = ws.headD "")
    ∨ (∃ l1 l2, ws = l1 ++ u :: v :: l2)
    ∨ (u = ws.getLastD "" ∧ v = OOV_TERM))

/-- Comparison target for claim C7, following the spec's words: walking a
node path, each word position contributes exactly two parallel edges from the
same source to the same target — the literal word at weight 2.0 and the
`OOV` token at weight 0.0. -/
def pairsAlong : List Int → List String → List TEdge
  | s :: t :: ns, w :: rw =>
    ⟨s, t, w, w, 2⟩ :: ⟨s, t, OOV_TERM, OOV_TERM, 0⟩ :: pairsAlong (t :: ns) rw
  | _, _ => []

/-- The node path of one chain: start node `cur`, then the freshly allocated
intermediate ids `a, a+1, …, a+len-2`, then the shared end node. -/
def chainPath (cur a endId : Int) (len : ℕ) : List Int :=
  cur :: (((List.range (len - 1)).map (fun j : ℕ => a + (j : Int))) ++ [endId])

/-- Comparison target for claim C7 at the level of a whole sequence set: each
sequence's chain runs from node 0 along its freshly allocated intermediate
ids to the shared end node, with two parallel edges per word position;
allocation advances by `len - 1` per sequence. -/
def specTranscriptChains (endId : Int) : Int → List (List String) → List TEdge
  | _, [] => []
  | a, ws :: rest =>
    pairsAlong (chainPath 0 a endId ws.length) ws
      ++ specTranscriptChains endId (a + ((ws.length : Int) - 1)) rest

/-- Structural invariant of the `bigrams` dictionary: the key list has no
duplicates (a Python dict), and a word is a key exactly when its successor
set is non-empty (every key insertion is immediately followed by an
element insertion). -/
def BigramsInv (g : Bigrams) : Prop :=
  g.keys.Nodup ∧ ∀ u, u ∈ g.keys ↔ g.succ u ≠ []

/-! ## Theorems -/

/-- Claim C1 (corrected), counterexample: for `S = [["hello","world"]]` with
both flags off, the bigram builder also emits the seeded `OOV→OOV` self-loop
(node 1 is the `OOV` node), an edge not among the three the claim lists; its
weight datum is `wsucc = 2` successors, and the printed weight
`-ln(1/2)` is not `0.0`. -/
theorem bigram_hello_world_claim_false :
    (⟨1, 1, "<unk>", "<unk>", 2⟩ : BEdge) ∈
        (makeBigramLmFst (Input.nested [["hello", "world"]]) flagsOff).edges
      ∧ wordIdOf (makeBigramLmFst (Input.nested [["hello", "world"]]) flagsOff).ids
          "<unk>" = some 1
      ∧ ¬ (-Real.log (1 / (2 : ℝ)) = 0) := by
  refine ⟨by decide, by decide, ?_⟩
  rw [neg_eq_zero, Real.log_eq_zero]
  norm_num

/-- Claim C1 (corrected), amended: for `S = [["hello","world"]]` with both
flags off the builder emits nodes exactly for `{OOV, "hello", "world"}`
(ids 1, 2, 3) and exactly the edges `OOV→OOV`, `OOV→hello` (each over
`wsucc = 2` successors, printed weight `-ln(1/2) = ln 2`), `hello→world` and
`world→OOV` (each over `wsucc = 1` successor, printed weight `-ln(1) = 0`),
with final state 3. -/
theorem bigram_hello_world_output :
    makeBigramLmFst (Input.nested [["hello", "world"]]) flagsOff =
      ⟨[⟨1, 1, "<unk>", "<unk>", 2⟩, ⟨1, 2, "hello", "hello", 2⟩,
        ⟨2, 3, "world", "world", 1⟩, ⟨3, 1, "<unk>", "<unk>", 1⟩],
       ["<unk>", "hello", "world"], 3⟩ := by decide

/-- Claim C3 (code bug): the transcript builder does not skip an empty
sequence gracefully — on `[[], ["a","b"]]` the final assertion fires
(`end_node_id = 1` but `next_available_node_id = 2`) and the build raises,
while on `[["a","b"]]` (the same set with the empty sequence removed) it
succeeds, so the outputs are not byte-identical as the claim requires. -/
theorem transcript_empty_seq_crash :
    makeTranscriptFst (Input.nested [[], ["a", "b"]]) flagsOff = .error (1, 2)
      ∧ (makeTranscriptFst (Input.nested [["a", "b"]]) flagsOff).isOk = true :=
  ⟨rfl, by decide⟩

/-- Claim C4 (code bug): line 122 computes
`end_node_id = sum(len(seq) - 1) + 1` without clamping `len(seq) - 1` at 0,
so for `[[], ["a"]]` the code computes 0 where the claimed formula
`1 + sum(max(len(seq)-1, 0))` gives 1, and the build then aborts on its own
assertion with `"0 vs 1"`. -/
theorem transcript_end_node_id_unclamped :
    endNodeIdOf [[], ["a"]] = 0
      ∧ 1 + ([[], ["a"]].map (fun ws : List String =>
          max ((ws.length : Int) - 1) 0)).sum = 1
      ∧ makeTranscriptFst (Input.nested [[], ["a"]]) flagsOff = .error (0, 1) :=
  ⟨by decide, by decide, rfl⟩

/-- Claim C8 (confirmed): a flat word sequence is wrapped into a one-element
set by both builders (`word_sequences = [word_sequences]`), so calling either
builder on the flat sequence gives output identical to calling it on the
one-element set containing that sequence, for every flag combination. -/
theorem flat_input_wrapped (ws : List String) (fl : Flags) :
    makeBigramLmFst (Input.flat ws) fl = makeBigramLmFst (Input.nested [ws]) fl
      ∧ makeTranscriptFst (Input.flat ws) fl
          = makeTranscriptFst (Input.nested [ws]) fl :=
  ⟨rfl, rfl⟩

/-- Claim C9 (corrected), counterexample: when the external compiler fails
and the `finally`-block `os.unlink` of the temporary input FST file also
fails, that unlink failure propagates and replaces the original subprocess
failure (Python `finally` semantics; the unlink is not wrapped in
`try/except`), and the temporary input file is not removed — so cleanup
failure is not always swallowed as the claim states. -/
theorem mblm_unlink_failure_masks :
    (makeBigramLanguageModel ⟨true, false, true⟩).result
        = .error .unlinkTxtErr
      ∧ (makeBigramLanguageModel ⟨true, false, true⟩).txtRemoved = false
      ∧ PyErr.unlinkTxtErr ≠ PyErr.subprocessErr :=
  ⟨rfl, rfl, by decide⟩

/-- Claim C9 (corrected), amended: when the external compiler invocation
fails and the unlink of the temporary input FST file succeeds, the function
removes that file and re-raises the original failure; a failure to delete the
temporary HCLG output file during the except-block cleanup is swallowed (the
outcome is the same whether or not that deletion fails).  Only a failure of
the input-FST unlink in the `finally` block can mask the original failure. -/
theorem mblm_cleanup_on_failure (env : ExtEnv)
    (h1 : env.subprocessFails = true) (h2 : env.unlinkTxtFails = false) :
    (makeBigramLanguageModel env).result = .error .subprocessErr
      ∧ (makeBigramLanguageModel env).txtRemoved = true
      ∧ (makeBigramLanguageModel env).hclgUnlinkAttempted = true := by
  simp [makeBigramLanguageModel, h1, h2]

/-- Witness for `mblm_cleanup_on_failure` at an environment where the HCLG
unlink itself fails: the original failure still propagates and the temporary
input file is still removed. -/
theorem mblm_cleanup_on_failure_witness :
    (true = true ∧ false = false)
      ∧ ((makeBigramLanguageModel ⟨true, true, false⟩).result
            = .error .subprocessErr
          ∧ (makeBigramLanguageModel ⟨true, true, false⟩).txtRemoved = true
          ∧ (makeBigramLanguageModel ⟨true, true, false⟩).hclgUnlinkAttempted
              = true) :=
  ⟨⟨rfl, rfl⟩, mblm_cleanup_on_failure ⟨true, true, false⟩ rfl rfl⟩

/-- The final `next_available_node_id` after walking one chain does not
depend on the node arguments: it advances by one per non-final, non-last-step
word, i.e. by `rest.length - 1` over the remaining words `w :: rest`. -/
theorem walk_avail (fl : Flags) (endId : Int) :
    ∀ (rest : List String) (w : String) (cur nxt a : Int),
      (transcriptWalk fl endId (w :: rest) cur nxt a).2
        = a + ((rest.length - 1 : ℕ) : Int) := by
  intro rest
  induction rest with
  | nil => intro w cur nxt a; simp [transcriptWalk]
  | cons w2 rest' ih =>
    intro w cur nxt a
    simp only [transcriptWalk]
    rw [ih]
    rcases rest' with _ | ⟨x, xs⟩
    · simp
    · simp
      omega

/-- Processing one non-empty sequence advances `next_available_node_id` by
`len(word_sequence) - 1`. -/
theorem seq_avail (fl : Flags) (endId : Int) (out : List TEdge) (a : Int)
    (sf ef : Bool) (w : String) (rest : List String) :
    (transcriptSeq fl endId (out, a, sf, ef) (w :: rest)).2.1
      = a + (rest.length : Int) := by
  rcases rest with _ | ⟨w2, rest'⟩
  · simp [transcriptSeq, transcriptWalk]
  · simp only [transcriptSeq, List.isEmpty_cons, walk_avail]
    simp
    omega

/-- The final `next_available_node_id` of the whole sequence loop: the start
value plus `len(seq) - 1` for each non-empty sequence (empty sequences are
skipped). -/
theorem fold_avail (fl : Flags) (endId : Int) :
    ∀ (seqs : List (List String)) (st : List TEdge × Int × Bool × Bool),
      (seqs.foldl (transcriptSeq fl endId) st).2.1
        = st.2.1 + ((seqs.filter (fun ws => !ws.isEmpty)).map
            (fun ws => (ws.length : Int) - 1)).sum := by
  intro seqs
  induction seqs with
  | nil => intro st; simp
  | cons ws rest ih =>
    intro st
    obtain ⟨out, a, sf, ef⟩ := st
    rcases ws with _ | ⟨w, tail⟩
    · simpa [transcriptSeq] using ih (out, a, sf, ef)
    · rw [List.foldl_cons, ih]
      simp [seq_avail]
      omega

/-- Splitting the unclamped sum of line 122 over empty and non-empty
sequences: the sum over non-empty sequences exceeds the full sum by exactly
the number of empty sequences (each of which contributes `-1`). -/
theorem sum_split_empties :
    ∀ seqs : List (List String),
      ((seqs.filter (fun ws => !ws.isEmpty)).map
          (fun ws => (ws.length : Int) - 1)).sum
        = (seqs.map (fun ws => (ws.length : Int) - 1)).sum
            + ((seqs.filter (fun ws => ws.isEmpty)).length : Int) := by
  intro seqs
  induction seqs with
  | nil => simp
  | cons ws rest ih =>
    rcases ws with _ | ⟨w, tail⟩
    · simp only [List.filter_cons, List.isEmpty_nil]
      simp only [List.map_cons, List.sum_cons]
      simp [ih]
      omega
    · simp only [List.filter_cons, List.isEmpty_cons]
      simp [ih]
      omega

/-- The success test of `make_transcript_fst`: the result is `.ok` exactly
when the assertion `end_node_id == next_available_node_id` holds. -/
theorem makeTranscriptFst_isOk_iff (inp : Input) (fl : Flags) :
    (makeTranscriptFst inp fl).isOk = true
      ↔ endNodeIdOf (normalizeInput inp)
          = (transcriptEmit fl (normalizeInput inp)).2 := by
  simp only [makeTranscriptFst]
  split
  · simpa [Except.isOk, Except.toBool] using ‹_›
  · simpa [Except.isOk, Except.toBool] using ‹_›

/-- The failure case of `make_transcript_fst`: when the assertion is
violated, the result is the `AssertionError` carrying expected and actual
counts. -/
theorem makeTranscriptFst_error (inp : Input) (fl : Flags)
    (h : ¬ endNodeIdOf (normalizeInput inp)
        = (transcriptEmit fl (normalizeInput inp)).2) :
    makeTranscriptFst inp fl
      = .error (endNodeIdOf (normalizeInput inp),
          (transcriptEmit fl (normalizeInput inp)).2) := by
  simp only [makeTranscriptFst]
  rw [if_neg h]

/-- Claim C5 (confirmed): for a non-empty set whose sequences are all
non-empty, the count of freshly allocated intermediate node ids (the final
`next_available_node_id` minus its initial value 1) equals the precomputed
global end node id minus 1, so the final assertion never fires and the build
completes. -/
theorem transcript_alloc_invariant (fl : Flags) (seqs : List (List String))
    (h1 : seqs ≠ []) (h2 : ∀ ws ∈ seqs, ws ≠ []) :
    (transcriptEmit fl seqs).2 - 1 = endNodeIdOf seqs - 1
      ∧ (makeTranscriptFst (Input.nested seqs) fl).isOk = true := by
  have hfilter : seqs.filter (fun ws => !ws.isEmpty) = seqs := by
    rw [List.filter_eq_self]
    intro ws hws
    simpa using h2 ws hws
  have havail : (transcriptEmit fl seqs).2 = endNodeIdOf seqs := by
    simp only [transcriptEmit, endNodeIdOf]
    rw [fold_avail, hfilter]
    simp
    omega
  refine ⟨by omega, ?_⟩
  obtain ⟨s, rest, rfl⟩ := List.exists_cons_of_ne_nil h1
  rw [makeTranscriptFst_isOk_iff]
  exact (havail).symm

/-- Witness for `transcript_alloc_invariant` at `[["a","b"], ["c"]]`. -/
theorem transcript_alloc_invariant_witness :
    (([["a", "b"], ["c"]] : List (List String)) ≠ []
        ∧ ∀ ws ∈ ([["a", "b"], ["c"]] : List (List String)), ws ≠ [])
      ∧ ((transcriptEmit flagsOff [["a", "b"], ["c"]]).2 - 1
            = endNodeIdOf [["a", "b"], ["c"]] - 1
          ∧ (makeTranscriptFst (Input.nested [["a", "b"], ["c"]])
              flagsOff).isOk = true) :=
  ⟨⟨by decide, by decide⟩,
    transcript_alloc_invariant flagsOff [["a", "b"], ["c"]] (by decide)
      (by decide)⟩

/-- Claim C10 (confirmed): for every list-of-lists input containing an empty
word sequence — and for the empty input list, which is wrapped into `[[]]` —
`make_transcript_fst` raises `AssertionError` (the end-node-id formula counts
each empty sequence as `-1` while the skip logic allocates nothing for it)
and produces no output. -/
theorem transcript_empty_seq_assert (fl : Flags) (seqs : List (List String))
    (h : [] ∈ seqs ∨ seqs = []) :
    ∃ p, makeTranscriptFst (Input.nested seqs) fl = .error p := by
  have hmem : [] ∈ normalizeInput (Input.nested seqs) := by
    rcases seqs with _ | ⟨s, rest⟩
    · simp [normalizeInput]
    · rcases h with h | h
      · simpa [normalizeInput] using h
      · exact absurd h (by simp)
  set ns := normalizeInput (Input.nested seqs) with hns
  have hcount : 1 ≤ ((ns.filter (fun ws => ws.isEmpty)).length : Int) := by
    have : [] ∈ ns.filter (fun ws => ws.isEmpty) :=
      List.mem_filter.mpr ⟨hmem, by simp⟩
    have hlen := List.length_pos.mpr (List.ne_nil_of_mem this)
    exact_mod_cast hlen
  have havail : (transcriptEmit fl ns).2
      = 1 + ((ns.filter (fun ws => !ws.isEmpty)).map
          (fun ws => (ws.length : Int) - 1)).sum := by
    simp only [transcriptEmit]
    rw [fold_avail]
  have hsplit := sum_split_empties ns
  have hne : ¬ endNodeIdOf ns = (transcriptEmit fl ns).2 := by
    simp only [endNodeIdOf]
    omega
  exact ⟨_, makeTranscriptFst_error (Input.nested seqs) fl hne⟩

/-- Every edge in a self-loop block is a self-loop, so the non-self-loop
filter removes the whole block. -/
theorem selfLoops_nonloop (fl : Flags) (n : Int) :
    (selfLoops fl n).filter (fun e => e.src != e.dst) = [] := by
  rw [List.filter_eq_nil_iff]
  intro e he
  simp only [selfLoops, List.mem_append] at he
  have hsd : e.src = n ∧ e.dst = n := by
    rcases he with he | he
    · split at he
      · obtain ⟨d, _, rfl⟩ := List.mem_map.mp he
        exact ⟨rfl, rfl⟩
      · simp at he
    · split at he
      · simp at he
        subst he
        exact ⟨rfl, rfl⟩
      · simp at he
  simp [hsd.1, hsd.2]

/-- A conditional self-loop block is also removed by the non-self-loop
filter. -/
theorem selfLoops_ite_nonloop (fl : Flags) (n : Int) (b : Bool) :
    ((if b then selfLoops fl n else []).filter (fun e => e.src != e.dst))
      = [] := by
  cases b <;> simp [selfLoops_nonloop]

/-- Peeling the first node off a chain path with at least one intermediate
node. -/
theorem chainPath_cons (cur a endId : Int) (n : ℕ) :
    chainPath cur a endId (n + 2) = cur :: chainPath a (a + 1) endId (n + 1) := by
  simp only [chainPath]
  have h1 : n + 2 - 1 = n + 1 := rfl
  have h2 : n + 1 - 1 = n := rfl
  rw [h1, h2, List.range_succ_eq_map, List.map_cons, List.map_map,
    List.cons_append]
  have hfun : ((fun j : ℕ => a + (j : Int)) ∘ Nat.succ)
      = (fun j : ℕ => a + 1 + (j : Int)) := by
    funext j
    simp [Function.comp]
    ring
  rw [hfun]
  norm_num

/-- The two parallel edges of the first position followed by the rest of the
pairs (definitional unfolding of `pairsAlong`). -/
theorem pairsAlong_cons (s t : Int) (ns : List Int) (w : String)
    (rw : List String) :
    pairsAlong (s :: t :: ns) (w :: rw)
      = ⟨s, t, w, w, 2⟩ :: ⟨s, t, OOV_TERM, OOV_TERM, 0⟩ :: pairsAlong (t :: ns) rw :=
  rfl

/-- Filtering the chain walk down to its non-self-loop edges gives exactly
the per-position parallel pairs along the chain's node path: provided the
current node lies strictly below the allocation counter and the counter stays
at most the end id, the word/OOV pairs are kept and all flag-induced
self-loops are dropped. -/
theorem walk_filter (fl : Flags) (endId : Int) :
    ∀ (rest : List String) (w : String) (cur a : Int),
      cur < a → a + (rest.length : Int) ≤ endId →
      (transcriptWalk fl endId (w :: rest) cur
          (if rest.isEmpty then endId else a)
          (if rest.isEmpty then a else a + 1)).1.filter
            (fun e => e.src != e.dst)
        = pairsAlong (chainPath cur a endId (rest.length + 1)) (w :: rest) := by
  intro rest
  induction rest with
  | nil =>
    intro w cur a hlt hle
    have hne : cur ≠ endId := by omega
    simp [transcriptWalk, chainPath, pairsAlong, hne]
  | cons w2 rest' ih =>
    intro w cur a hlt hle
    simp only [List.isEmpty_cons, Bool.false_eq_true, if_false]
    simp only [transcriptWalk]
    rw [List.filter_append, List.filter_append, selfLoops_nonloop]
    have hle' : a + 1 + (rest'.length : Int) ≤ endId := by
      simp only [List.length_cons] at hle
      push_cast at hle
      omega
    rw [ih w2 a (a + 1) (by omega) hle']
    have hcur : cur ≠ a := by omega
    simp only [List.length_cons]
    rw [show (rest'.length + 1 + 1) = (rest'.length + 2) from rfl,
      chainPath_cons cur a endId rest'.length]
    have hpath : chainPath a (a + 1) endId (rest'.length + 1)
        = a :: (((List.range rest'.length).map
            (fun j : ℕ => a + 1 + (j : Int))) ++ [endId]) := by
      simp [chainPath]
    rw [hpath, pairsAlong_cons, ← hpath]
    simp [hcur]

/-- Entry form of `walk_avail` matching the per-sequence call site: walking a
whole sequence `w :: tail` advances the allocation counter by
`len(sequence) - 1 = tail.length`. -/
theorem walk_avail_entry (fl : Flags) (endId : Int) (w : String)
    (tail : List String) (cur a : Int) :
    (transcriptWalk fl endId (w :: tail) cur
        (if tail.isEmpty then endId else a)
        (if tail.isEmpty then a else a + 1)).2 = a + (tail.length : Int) := by
  rcases tail with _ | ⟨x, xs⟩
  · simp [walk_avail]
  · simp [walk_avail]
    omega

/-- One non-empty sequence step of the sequence loop, written out: the start
and end self-loop blocks (gated by the flags state), the chain walk from node
0, and the allocation counter advanced by `len(sequence) - 1`. -/
theorem seq_step (fl : Flags) (endId : Int) (out : List TEdge) (a : Int)
    (sf ef : Bool) (w : String) (tail : List String) :
    transcriptSeq fl endId (out, a, sf, ef) (w :: tail)
      = (out ++ (if sf then selfLoops fl 0 else [])
          ++ (transcriptWalk fl endId (w :: tail) 0
              (if tail.isEmpty then endId else a)
              (if tail.isEmpty then a else a + 1)).1
          ++ (if ef then selfLoops fl endId else []),
         a + (tail.length : Int), false, false) := by
  simp only [transcriptSeq, walk_avail_entry]

/-- Non-self-loop edges of the whole sequence loop: with all sequences
non-empty, a positive allocation counter, and the counter plus all remaining
allocations bounded by the end id, the filtered output is the previously
accumulated filtered output followed by the per-position parallel pairs of
every chain. -/
theorem emit_filter (fl : Flags) (endId : Int) :
    ∀ (seqs : List (List String)) (st : List TEdge × Int × Bool × Bool),
      (∀ ws ∈ seqs, ws ≠ []) → 1 ≤ st.2.1 →
      st.2.1 + ((seqs.map (fun ws => (ws.length : Int) - 1)).sum) ≤ endId →
      ((seqs.foldl (transcriptSeq fl endId) st).1).filter
          (fun e => e.src != e.dst)
        = st.1.filter (fun e => e.src != e.dst)
            ++ specTranscriptChains endId st.2.1 seqs := by
  intro seqs
  induction seqs with
  | nil =>
    intro st _ _ _
    simp [specTranscriptChains]
  | cons ws rest ih =>
    intro st hne h1 hbound
    obtain ⟨out, a, sf, ef⟩ := st
    obtain ⟨w, tail, rfl⟩ :=
      List.exists_cons_of_ne_nil (hne ws (List.mem_cons_self ws rest))
    have hrest_nonneg : 0 ≤ (rest.map (fun ws => (ws.length : Int) - 1)).sum := by
      apply List.sum_nonneg
      intro x hx
      obtain ⟨ws, hws, rfl⟩ := List.mem_map.mp hx
      have hws' : ws ≠ [] := hne ws (by simp [hws])
      have : 1 ≤ ws.length := List.length_pos.mpr hws'
      omega
    have h1' : (1 : Int) ≤ a := h1
    have hbound0 : a + ((((w :: tail) :: rest).map
        (fun ws => (ws.length : Int) - 1)).sum) ≤ endId := hbound
    have hbound1 : a + (tail.length : Int)
        + ((rest.map (fun ws => (ws.length : Int) - 1)).sum) ≤ endId := by
      simp only [List.map_cons, List.sum_cons, List.length_cons] at hbound0
      omega
    have hbound' : a + (tail.length : Int) ≤ endId := by omega
    rw [List.foldl_cons, seq_step]
    generalize hE : out ++ (if sf then selfLoops fl 0 else [])
        ++ (transcriptWalk fl endId (w :: tail) 0
            (if tail.isEmpty then endId else a)
            (if tail.isEmpty then a else a + 1)).1
        ++ (if ef then selfLoops fl endId else []) = E
    rw [ih (E, a + (tail.length : Int), false, false)
        (fun ws hws => hne ws (List.mem_cons_of_mem _ hws))
        (by simp; omega)
        (by simp; omega)]
    dsimp only
    subst hE
    rw [List.filter_append, List.filter_append, List.filter_append,
      selfLoops_ite_nonloop, selfLoops_ite_nonloop,
      walk_filter fl endId tail w 0 a (by omega) hbound']
    simp only [specTranscriptChains, List.length_cons]
    have hcast : a + ((((tail.length : ℕ) + 1 : ℕ) : Int) - 1)
        = a + (tail.length : Int) := by
      push_cast
      ring
    rw [hcast]
    simp [List.append_assoc]

/-- Claim C7 (confirmed): in the transcript builder, for every input whose
sequences are all non-empty (the inputs on which the build completes) and any
flags, the non-self-loop edges emitted are exactly, per sequence and per word
position, two parallel edges from the same source node to the same target
node — the literal word at weight 2.0 and the OOV token at weight 0.0 —
along each chain's node path. -/
theorem transcript_parallel_edges (fl : Flags) (seqs : List (List String))
    (h : ∀ ws ∈ seqs, ws ≠ []) :
    (transcriptEmit fl seqs).1.filter (fun e => e.src != e.dst)
      = specTranscriptChains (endNodeIdOf seqs) 1 seqs := by
  simp only [transcriptEmit]
  rw [emit_filter fl (endNodeIdOf seqs) seqs ([], 1, true, true) h (by norm_num)
    (by simp [endNodeIdOf]; omega)]
  simp

/-- Witness for `transcript_parallel_edges` at `[["a","b"], ["c"]]` with both
flags on and one disfluency word. -/
theorem transcript_parallel_edges_witness :
    (∀ ws ∈ ([["a", "b"], ["c"]] : List (List String)), ws ≠ [])
      ∧ (transcriptEmit ⟨true, true, ["uh"]⟩ [["a", "b"], ["c"]]).1.filter
            (fun e => e.src != e.dst)
          = specTranscriptChains (endNodeIdOf [["a", "b"], ["c"]]) 1
              [["a", "b"], ["c"]] :=
  ⟨by decide,
    transcript_parallel_edges ⟨true, true, ["uh"]⟩ [["a", "b"], ["c"]]
      (by decide)⟩

/-- A node index is stable under later appends to the assignment list. -/
theorem nodeIdx_append_some {ids : List String} {w : String} {i : ℕ}
    (h : nodeIdx ids w = some i) (t : List String) :
    nodeIdx (ids ++ t) w = some i := by
  induction ids generalizing i with
  | nil => simp [nodeIdx] at h
  | cons x xs ih =>
    simp only [nodeIdx, List.cons_append] at h ⊢
    by_cases hx : w = x
    · simpa [hx] using h
    · simp only [hx, if_false] at h ⊢
      obtain ⟨j, hj, rfl⟩ := Option.map_eq_some'.mp h
      simp [ih hj]

/-- A word has no node index exactly when it is not in the assignment
list. -/
theorem nodeIdx_eq_none_iff (ids : List String) (w : String) :
    nodeIdx ids w = none ↔ w ∉ ids := by
  induction ids with
  | nil => simp [nodeIdx]
  | cons x xs ih =>
    simp only [nodeIdx, List.mem_cons]
    by_cases hx : w = x
    · simp [hx]
    · simp [hx, ih]

/-- Appending an unassigned word gives it the next index. -/
theorem nodeIdx_append_self {ids : List String} {w : String} (h : w ∉ ids) :
    nodeIdx (ids ++ [w]) w = some ids.length := by
  induction ids with
  | nil => simp [nodeIdx]
  | cons x xs ih =>
    simp only [List.mem_cons, not_or] at h
    simp [nodeIdx, h.1, ih h.2]

/-- The node index points back at the word: index `i` holds word `w`. -/
theorem nodeIdx_get (ids : List String) (w : String) (i : ℕ)
    (h : nodeIdx ids w = some i) : ids.get? i = some w := by
  induction ids generalizing i with
  | nil => simp [nodeIdx] at h
  | cons x xs ih =>
    simp only [nodeIdx] at h
    by_cases hx : w = x
    · subst hx
      rw [if_pos rfl] at h
      injection h with h'
      subst h'
      simp
    · simp only [hx, if_false] at h
      obtain ⟨j, hj, rfl⟩ := Option.map_eq_some'.mp h
      simpa using ih j hj

/-- Two words with the same assigned id are equal. -/
theorem wordIdOf_inj {ids : List String} {u v : String} {s : ℕ}
    (hu : wordIdOf ids u = some s) (hv : wordIdOf ids v = some s) : u = v := by
  simp only [wordIdOf] at hu hv
  obtain ⟨i, hi, hs⟩ := Option.map_eq_some'.mp hu
  obtain ⟨j, hj, ht⟩ := Option.map_eq_some'.mp hv
  have hij : i = j := by omega
  subst hij
  have h1 := nodeIdx_get ids u i hi
  have h2 := nodeIdx_get ids v i hj
  rw [h1] at h2
  exact (Option.some.injEq _ _ ▸ h2).symm ▸ rfl

/-- An assigned word is in the assignment list. -/
theorem mem_of_wordIdOf {ids : List String} {w : String} {s : ℕ}
    (h : wordIdOf ids w = some s) : w ∈ ids := by
  simp only [wordIdOf] at h
  obtain ⟨i, hi, _⟩ := Option.map_eq_some'.mp h
  by_contra hmem
  rw [(nodeIdx_eq_none_iff ids w).mpr hmem] at hi
  cases hi

/-- A word in the assignment list has an assigned id. -/
theorem wordIdOf_of_mem {ids : List String} {w : String} (h : w ∈ ids) :
    ∃ s, wordIdOf ids w = some s := by
  rcases hi : nodeIdx ids w with _ | i
  · exact absurd ((nodeIdx_eq_none_iff ids w).mp hi) (by simp [h])
  · exact ⟨i + 1, by simp [wordIdOf, hi]⟩

/-- Stability of assigned ids under appends. -/
theorem wordIdOf_append {ids : List String} {w : String} {s : ℕ}
    (h : wordIdOf ids w = some s) (t : List String) :
    wordIdOf (ids ++ t) w = some s := by
  simp only [wordIdOf] at h ⊢
  obtain ⟨i, hi, rfl⟩ := Option.map_eq_some'.mp h
  simp [nodeIdx_append_some hi t]

/-- `get_node_id` returns the id that the updated assignment list gives the
word, and only ever appends to the list. -/
theorem getNodeId_spec (ids : List String) (w : String) :
    wordIdOf (getNodeId ids w).2 w = some (getNodeId ids w).1
      ∧ ∃ t, (getNodeId ids w).2 = ids ++ t := by
  rcases hi : nodeIdx ids w with _ | i
  · have hmem : w ∉ ids := (nodeIdx_eq_none_iff ids w).mp hi
    constructor
    · simp only [getNodeId, hi]
      simp [wordIdOf, nodeIdx_append_self hmem]
    · exact ⟨[w], by simp [getNodeId, hi]⟩
  · refine ⟨?_, [], by simp [getNodeId, hi]⟩
    simp [getNodeId, hi, wordIdOf]

/-- Characterization of the inner emission loop of `make_bigram_lm_fst`: it
appends one edge per listed successor, each targeting the id that the final
assignment list gives that successor, and it only extends the assignment
list, covering all listed successors. -/
theorem emitSucc_spec (fromId n : ℕ) :
    ∀ (vs : List String) (es : List BEdge) (ids : List String),
      (∃ t, (bigramEmitSucc fromId n vs (es, ids)).2 = ids ++ t)
        ∧ (∀ v ∈ vs, v ∈ (bigramEmitSucc fromId n vs (es, ids)).2)
        ∧ (bigramEmitSucc fromId n vs (es, ids)).1
            = es ++ vs.map (fun v =>
                ⟨fromId,
                 (wordIdOf (bigramEmitSucc fromId n vs (es, ids)).2 v).getD 0,
                 v, v, n⟩) := by
  intro vs
  induction vs with
  | nil => intro es ids; exact ⟨⟨[], by simp [bigramEmitSucc]⟩, by simp,
      by simp [bigramEmitSucc]⟩
  | cons v vs ih =>
    intro es ids
    have hstep : bigramEmitSucc fromId n (v :: vs) (es, ids)
        = bigramEmitSucc fromId n vs
            (es ++ [⟨fromId, (getNodeId ids v).1, v, v, n⟩],
             (getNodeId ids v).2) := rfl
    obtain ⟨hvid, t0, ht0⟩ := getNodeId_spec ids v
    obtain ⟨⟨t1, ht1⟩, hmem, hes⟩ :=
      ih (es ++ [⟨fromId, (getNodeId ids v).1, v, v, n⟩]) (getNodeId ids v).2
    rw [hstep]
    refine ⟨⟨t0 ++ t1, by rw [ht1, ht0, List.append_assoc]⟩, ?_, ?_⟩
    · intro u hu
      rcases List.mem_cons.mp hu with rfl | hu
      · rw [ht1]
        exact List.mem_append_left _ (mem_of_wordIdOf hvid)
      · exact hmem u hu
    · rw [hes, List.map_cons, List.append_assoc]
      congr 1
      rw [List.singleton_append]
      congr 2
      rw [ht1, wordIdOf_append hvid t1]
      rfl

/-- Membership is preserved by the sorting of keys and successor sets. -/
theorem mem_sortStrings {l : List String} {a : String} :
    a ∈ sortStrings l ↔ a ∈ l :=
  (List.perm_insertionSort _ l).mem_iff

/-- Characterization of the outer emission loop of `make_bigram_lm_fst`: for
each key in order, one block of edges over its sorted successor list, all ids
referred to the final assignment list, which contains every processed key and
every emitted successor. -/
theorem emitKeys_spec (g : Bigrams) :
    ∀ (ks : List String) (es : List BEdge) (ids : List String),
      (∃ t, (bigramEmitKeys g ks (es, ids)).2 = ids ++ t)
        ∧ (∀ u ∈ ks, u ∈ (bigramEmitKeys g ks (es, ids)).2)
        ∧ (∀ u ∈ ks, ∀ v ∈ g.succ u, v ∈ (bigramEmitKeys g ks (es, ids)).2)
        ∧ (bigramEmitKeys g ks (es, ids)).1
            = es ++ ks.flatMap (fun u =>
                (sortStrings (g.succ u)).map (fun v =>
                  ⟨(wordIdOf (bigramEmitKeys g ks (es, ids)).2 u).getD 0,
                   (wordIdOf (bigramEmitKeys g ks (es, ids)).2 v).getD 0,
                   v, v, (g.succ u).length⟩)) := by
  intro ks
  induction ks with
  | nil => intro es ids; exact ⟨⟨[], by simp [bigramEmitKeys]⟩, by simp,
      by simp, by simp [bigramEmitKeys]⟩
  | cons u ks ih =>
    intro es ids
    have hstep : bigramEmitKeys g (u :: ks) (es, ids)
        = bigramEmitKeys g ks
            (bigramEmitSucc (getNodeId ids u).1 (g.succ u).length
              (sortStrings (g.succ u)) (es, (getNodeId ids u).2)) := rfl
    obtain ⟨huid, t0, ht0⟩ := getNodeId_spec ids u
    obtain ⟨⟨t1, ht1⟩, hvmem, hinner⟩ :=
      emitSucc_spec (getNodeId ids u).1 (g.succ u).length
        (sortStrings (g.succ u)) es (getNodeId ids u).2
    rcases hi : bigramEmitSucc (getNodeId ids u).1 (g.succ u).length
        (sortStrings (g.succ u)) (es, (getNodeId ids u).2) with ⟨es1, ids1⟩
    rw [hi] at ht1 hvmem hinner
    dsimp only at ht1 hvmem hinner
    obtain ⟨⟨t2, ht2⟩, hkmem, hsmem, houter⟩ := ih es1 ids1
    rw [hstep, hi]
    have hfin : ∀ x ∈ ids1, x ∈ (bigramEmitKeys g ks (es1, ids1)).2 := by
      intro x hx
      rw [ht2]
      exact List.mem_append_left _ hx
    have huid1 : wordIdOf ids1 u = some (getNodeId ids u).1 := by
      rw [ht1]
      exact wordIdOf_append huid t1
    have huidfin : wordIdOf (bigramEmitKeys g ks (es1, ids1)).2 u
        = some (getNodeId ids u).1 := by
      rw [ht2]
      exact wordIdOf_append huid1 t2
    refine ⟨⟨t0 ++ (t1 ++ t2), ?_⟩, ?_, ?_, ?_⟩
    · rw [ht2, ht1, ht0]
      simp [List.append_assoc]
    · intro x hx
      rcases List.mem_cons.mp hx with rfl | hx
      · exact hfin x (by
          rw [ht1]
          exact List.mem_append_left _ (mem_of_wordIdOf huid))
      · exact hkmem x hx
    · intro x hx v hv
      rcases List.mem_cons.mp hx with rfl | hx
      · exact hfin v (hvmem v (mem_sortStrings.mpr hv))
      · exact hsmem x hx v hv
    · rw [houter, List.flatMap_cons, ← List.append_assoc]
      congr 1
      conv_lhs => rw [hinner]
      congr 1
      apply List.map_congr_left
      intro v hv
      have hvin : v ∈ ids1 := hvmem v hv
      obtain ⟨s, hs⟩ := wordIdOf_of_mem hvin
      rw [huidfin]
      rw [hs, ht2, wordIdOf_append hs t2]
      rfl

/-- Membership in a successor set after `bigrams.setdefault(a, set()).add(b)`:
the old membership, or the new pair. -/
theorem Bigrams.add_mem (g : Bigrams) (a b u v : String) :
    v ∈ (g.add a b).succ u ↔ v ∈ g.succ u ∨ (u = a ∧ v = b) := by
  simp only [Bigrams.add]
  by_cases hu : u = a
  · subst hu
    rw [if_pos rfl]
    by_cases hb : b ∈ g.succ u
    · rw [if_pos hb]
      constructor
      · exact Or.inl
      · rintro (h | ⟨-, rfl⟩)
        · exact h
        · exact hb
    · rw [if_neg hb]
      simp [List.mem_append]
  · rw [if_neg hu]
    simp [hu]

/-- `Bigrams.add` preserves the dictionary invariant. -/
theorem add_inv (g : Bigrams) (hg : BigramsInv g) (a b : String) :
    BigramsInv (g.add a b) := by
  obtain ⟨hnd, hiff⟩ := hg
  constructor
  · simp only [Bigrams.add]
    by_cases ha : a ∈ g.keys
    · simpa [ha] using hnd
    · simp [ha, List.nodup_append, hnd]
  · intro u
    simp only [Bigrams.add]
    by_cases hu : u = a
    · subst hu
      constructor
      · intro _
        by_cases hb : b ∈ g.succ u
        · rw [if_pos rfl, if_pos hb]
          intro h0
          rw [h0] at hb
          cases hb
        · rw [if_pos rfl, if_neg hb]
          simp
      · intro _
        by_cases ha : u ∈ g.keys
        · simp [ha]
        · simp [ha]
    · rw [if_neg hu]
      constructor
      · intro hmem
        by_cases ha : a ∈ g.keys
        · exact (hiff u).mp (by simpa [ha] using hmem)
        · simp only [ha, if_false, List.mem_append, List.mem_singleton] at hmem
          rcases hmem with hmem | rfl
          · exact (hiff u).mp hmem
          · exact absurd rfl hu
      · intro hne
        have := (hiff u).mpr hne
        by_cases ha : a ∈ g.keys
        · simpa [ha] using this
        · simp [ha, this]

/-- The invariant is preserved by any fold whose step preserves it. -/
theorem foldl_add_inv {α : Type} (f : Bigrams → α → Bigrams)
    (hf : ∀ g x, BigramsInv g → BigramsInv (f g x)) :
    ∀ (l : List α) (g : Bigrams), BigramsInv g → BigramsInv (l.foldl f g) := by
  intro l
  induction l with
  | nil => intro g hg; exact hg
  | cons x l ih => intro g hg; exact ih (f g x) (hf g x hg)

/-- The pair walk of `make_bigram_lm_fst` preserves the dictionary
invariant (for every flag combination). -/
theorem seqStep_inv (fl : Flags) :
    ∀ (rest : List String) (g : Bigrams) (prev : String), BigramsInv g →
      BigramsInv (bigramSeqStep fl g prev rest) := by
  intro rest
  induction rest with
  | nil => intro g prev hg; exact add_inv g hg prev OOV_TERM
  | cons word rest ih =>
    intro g prev hg
    simp only [bigramSeqStep]
    apply ih
    have h1 : BigramsInv (g.add prev word) := add_inv g hg prev word
    have h2 : BigramsInv (if fl.conservative
        then (g.add prev word).add prev OOV_TERM else g.add prev word) := by
      split
      · exact add_inv _ h1 prev OOV_TERM
      · exact h1
    split
    · apply foldl_add_inv (fun g d => g.add d word)
        (fun g d hg => add_inv g hg d word)
      apply foldl_add_inv (fun g d => g.add prev d)
        (fun g d hg => add_inv g hg prev d)
      exact h2
    · exact h2

/-- Per-sequence processing preserves the dictionary invariant. -/
theorem addSeq_inv (fl : Flags) (g : Bigrams) (hg : BigramsInv g)
    (ws : List String) : BigramsInv (bigramAddSeq fl g ws) := by
  rcases ws with _ | ⟨prev, rest⟩
  · exact hg
  · simp only [bigramAddSeq]
    apply seqStep_inv
    have h1 : BigramsInv (g.add OOV_TERM prev) := add_inv g hg OOV_TERM prev
    split
    · apply foldl_add_inv (fun g d => (g.add d prev).add d OOV_TERM)
        (fun g d hg => add_inv _ (add_inv g hg d prev) d OOV_TERM)
      apply foldl_add_inv (fun g d => g.add OOV_TERM d)
        (fun g d hg => add_inv g hg OOV_TERM d)
      exact h1
    · exact h1

/-- The final `bigrams` dictionary satisfies the invariant. -/
theorem build_inv (fl : Flags) (seqs : List (List String)) :
    BigramsInv (buildBigrams fl seqs) := by
  apply foldl_add_inv (bigramAddSeq fl) (fun g ws hg => addSeq_inv fl g hg ws)
  constructor
  · simp [initBigrams]
  · intro u
    simp only [initBigrams]
    by_cases hu : u = OOV_TERM
    · simp [hu]
    · simp [hu]

/-- Splitting a consecutive pair out of a cons cell: either the pair starts
at the head, or it lies wholly in the tail. -/
theorem pair_split (a : String) (l : List String) (u v : String) :
    (∃ l1 l2, a :: l = l1 ++ u :: v :: l2)
      ↔ ((u = a ∧ ∃ l2, l = v :: l2) ∨ ∃ l1 l2, l = l1 ++ u :: v :: l2) := by
  constructor
  · rintro ⟨l1, l2, h⟩
    rcases l1 with _ | ⟨x, l1'⟩
    · simp only [List.nil_append, List.cons.injEq] at h
      exact Or.inl ⟨h.1.symm, l2, h.2⟩
    · rw [List.cons_append] at h
      injection h with h1 h2
      exact Or.inr ⟨l1', l2, h2⟩
  · rintro (⟨rfl, l2, rfl⟩ | ⟨l1, l2, rfl⟩)
    · exact ⟨[], l2, rfl⟩
    · exact ⟨a :: l1, l2, rfl⟩

/-- A one-element list contains no consecutive pair. -/
theorem singleton_no_pair (a u v : String) :
    ¬ ∃ l1 l2, ([a] : List String) = l1 ++ u :: v :: l2 := by
  rintro ⟨l1, l2, h⟩
  have hlen := congrArg List.length h
  simp at hlen
  omega

/-- Membership after the pair walk with both flags off: the old relation,
a consecutive pair of `prev :: rest`, or the end-marker edge from the last
word to `OOV`. -/
theorem seqStep_mem_off :
    ∀ (rest : List String) (prev : String) (g : Bigrams) (u v : String),
      v ∈ (bigramSeqStep flagsOff g prev rest).succ u
        ↔ v ∈ g.succ u ∨ (∃ l1 l2, prev :: rest = l1 ++ u :: v :: l2)
          ∨ (u = List.getLastD rest prev ∧ v = OOV_TERM) := by
  intro rest
  induction rest with
  | nil =>
    intro prev g u v
    simp only [bigramSeqStep]
    rw [Bigrams.add_mem]
    constructor
    · rintro (h | h)
      · exact Or.inl h
      · exact Or.inr (Or.inr (by simpa using h))
    · rintro (h | h | h)
      · exact Or.inl h
      · exact absurd h (singleton_no_pair prev u v)
      · exact Or.inr (by simpa using h)
  | cons word rest ih =>
    intro prev g u v
    have hc : flagsOff.conservative = false := rfl
    have hd : flagsOff.disfluency = false := rfl
    simp only [bigramSeqStep, hc, hd, Bool.false_eq_true, if_false]
    rw [ih word (g.add prev word) u v, Bigrams.add_mem,
      pair_split prev (word :: rest) u v, List.getLastD_cons]
    constructor
    · rintro ((h | h) | h | h)
      · exact Or.inl h
      · exact Or.inr (Or.inl (Or.inl ⟨h.1, rest, by rw [h.2]⟩))
      · exact Or.inr (Or.inl (Or.inr h))
      · exact Or.inr (Or.inr h)
    · rintro (h | (⟨h1, l2, h2⟩ | h) | h)
      · exact Or.inl (Or.inl h)
      · injection h2 with h2a h2b
        exact Or.inl (Or.inr ⟨h1, h2a.symm⟩)
      · exact Or.inr (Or.inl h)
      · exact Or.inr (Or.inr h)

/-- Membership after processing one sequence with both flags off: the old
relation plus the sequence's contribution `seqRel`. -/
theorem addSeq_mem_off (g : Bigrams) (ws : List String) (u v : String) :
    v ∈ (bigramAddSeq flagsOff g ws).succ u
      ↔ v ∈ g.succ u ∨ seqRel ws u v := by
  rcases ws with _ | ⟨prev, rest⟩
  · simp [bigramAddSeq, seqRel]
  · have hd : flagsOff.disfluency = false := rfl
    simp only [bigramAddSeq, hd, Bool.false_eq_true, if_false]
    rw [seqStep_mem_off rest prev (g.add OOV_TERM prev) u v, Bigrams.add_mem]
    simp only [seqRel, List.headD_cons, List.getLastD_cons, ne_eq,
      reduceCtorEq, not_false_eq_true, true_and]
    constructor
    · rintro ((h | h) | h | h)
      · exact Or.inl h
      · exact Or.inr (Or.inl h)
      · exact Or.inr (Or.inr (Or.inl h))
      · exact Or.inr (Or.inr (Or.inr h))
    · rintro (h | h | h | h)
      · exact Or.inl (Or.inl h)
      · exact Or.inl (Or.inr h)
      · exact Or.inr (Or.inl h)
      · exact Or.inr (Or.inr h)

/-- Membership after the whole sequence loop with both flags off. -/
theorem fold_mem_off :
    ∀ (seqs : List (List String)) (g : Bigrams) (u v : String),
      v ∈ (seqs.foldl (bigramAddSeq flagsOff) g).succ u
        ↔ v ∈ g.succ u ∨ ∃ ws ∈ seqs, seqRel ws u v := by
  intro seqs
  induction seqs with
  | nil => intro g u v; simp
  | cons ws seqs ih =>
    intro g u v
    rw [List.foldl_cons, ih, addSeq_mem_off]
    constructor
    · rintro ((h | h) | ⟨ws', hws', h⟩)
      · exact Or.inl h
      · exact Or.inr ⟨ws, List.mem_cons_self ws seqs, h⟩
      · exact Or.inr ⟨ws', List.mem_cons_of_mem _ hws', h⟩
    · rintro (h | ⟨ws', hws', h⟩)
      · exact Or.inl (Or.inl h)
      · rcases List.mem_cons.mp hws' with rfl | hws'
        · exact Or.inl (Or.inr h)
        · exact Or.inr ⟨ws', hws', h⟩

/-- The final `bigrams` successor relation with both flags off is exactly the
relation of §4.1 steps 1–4. -/
theorem build_mem_off (seqs : List (List String)) (u v : String) :
    v ∈ (buildBigrams flagsOff seqs).succ u ↔ specSuccRel seqs u v := by
  simp only [buildBigrams]
  rw [fold_mem_off]
  have hinit : v ∈ initBigrams.succ u ↔ (u = OOV_TERM ∧ v = OOV_TERM) := by
    simp only [initBigrams]
    by_cases hu : u = OOV_TERM
    · simp [hu]
    · simp [hu]
  rw [hinit]
  simp only [specSuccRel, seqRel]
  constructor
  · rintro (h | ⟨ws, hws, hne, (h | h | h)⟩)
    · exact Or.inl h
    · exact Or.inr (Or.inl ⟨ws, hws, hne, h⟩)
    · exact Or.inr (Or.inr (Or.inl ⟨ws, hws, h⟩))
    · exact Or.inr (Or.inr (Or.inr ⟨ws, hws, hne, h⟩))
  · rintro (h | ⟨ws, hws, hne, h⟩ | ⟨ws, hws, l1, l2, h⟩ | ⟨ws, hws, hne, h⟩)
    · exact Or.inl h
    · exact Or.inr ⟨ws, hws, hne, Or.inl h⟩
    · refine Or.inr ⟨ws, hws, ?_, Or.inr (Or.inl ⟨l1, l2, h⟩)⟩
      rw [h]
      simp
    · exact Or.inr ⟨ws, hws, hne, Or.inr (Or.inr h)⟩

/-- Claim C2 (confirmed): for every non-empty set with both flags off,
parsing the bigram builder's output back into an adjacency relation — an
edge from the node assigned to `u` whose label is `v` — yields exactly the
successor relation of §4.1 steps 1–4: the seeded `OOV→OOV` pair, each
sequence's first word after `OOV`, each consecutive pair, and `OOV` after
each sequence's last word; no extra and no missing edges. -/
theorem bigram_adjacency_exact (seqs : List (List String)) (hne : seqs ≠ [])
    (u v : String) :
    (∃ e ∈ (makeBigramLmFst (Input.nested seqs) flagsOff).edges,
        wordIdOf (makeBigramLmFst (Input.nested seqs) flagsOff).ids u
            = some e.src
          ∧ e.olab = v)
      ↔ specSuccRel seqs u v := by
  obtain ⟨s, rest, rfl⟩ := List.exists_cons_of_ne_nil hne
  have hE : (makeBigramLmFst (Input.nested (s :: rest)) flagsOff).edges
      = (bigramEmitKeys (buildBigrams flagsOff (s :: rest))
          (sortStrings (buildBigrams flagsOff (s :: rest)).keys) ([], [])).1 :=
    rfl
  have hI : (makeBigramLmFst (Input.nested (s :: rest)) flagsOff).ids
      = (bigramEmitKeys (buildBigrams flagsOff (s :: rest))
          (sortStrings (buildBigrams flagsOff (s :: rest)).keys) ([], [])).2 :=
    rfl
  obtain ⟨⟨t, hids⟩, hkm, hsm, hedges⟩ :=
    emitKeys_spec (buildBigrams flagsOff (s :: rest))
      (sortStrings (buildBigrams flagsOff (s :: rest)).keys) [] []
  rw [hE, hI, hedges, List.nil_append]
  constructor
  · rintro ⟨e, he, hsrc, holab⟩
    obtain ⟨u', hu', hmap⟩ := List.mem_flatMap.mp he
    obtain ⟨v', hv', rfl⟩ := List.mem_map.mp hmap
    have holab' : v' = v := holab
    subst holab'
    obtain ⟨su', hsu'⟩ := wordIdOf_of_mem (hkm u' hu')
    dsimp only at hsrc
    rw [hsu', Option.getD_some] at hsrc
    have huu : u = u' := wordIdOf_inj hsrc hsu'
    subst huu
    exact (build_mem_off (s :: rest) u v').mp (mem_sortStrings.mp hv')
  · intro hspec
    have hv : v ∈ (buildBigrams flagsOff (s :: rest)).succ u :=
      (build_mem_off (s :: rest) u v).mpr hspec
    have hsne : (buildBigrams flagsOff (s :: rest)).succ u ≠ [] := by
      intro h0
      rw [h0] at hv
      cases hv
    have hukeys : u ∈ (buildBigrams flagsOff (s :: rest)).keys :=
      ((build_inv flagsOff (s :: rest)).2 u).mpr hsne
    have huk : u ∈ sortStrings (buildBigrams flagsOff (s :: rest)).keys :=
      mem_sortStrings.mpr hukeys
    have hvs : v ∈ sortStrings ((buildBigrams flagsOff (s :: rest)).succ u) :=
      mem_sortStrings.mpr hv
    obtain ⟨su, hsu⟩ := wordIdOf_of_mem (hkm u huk)
    refine ⟨⟨(wordIdOf (bigramEmitKeys (buildBigrams flagsOff (s :: rest))
          (sortStrings (buildBigrams flagsOff (s :: rest)).keys)
          ([], [])).2 u).getD 0,
        (wordIdOf (bigramEmitKeys (buildBigrams flagsOff (s :: rest))
          (sortStrings (buildBigrams flagsOff (s :: rest)).keys)
          ([], [])).2 v).getD 0,
        v, v, ((buildBigrams flagsOff (s :: rest)).succ u).length⟩,
      ?_, ?_, rfl⟩
    · exact List.mem_flatMap.mpr ⟨u, huk, List.mem_map.mpr ⟨v, hvs, rfl⟩⟩
    · dsimp only
      rw [hsu, Option.getD_some]

/-- Witness for `bigram_adjacency_exact` at `[["hello","world"]]` with the
pair `("hello", "world")`. -/
theorem bigram_adjacency_exact_witness :
    (([["hello", "world"]] : List (List String)) ≠ [])
      ∧ ((∃ e ∈ (makeBigramLmFst (Input.nested [["hello", "world"]])
              flagsOff).edges,
            wordIdOf (makeBigramLmFst (Input.nested [["hello", "world"]])
                flagsOff).ids "hello" = some e.src
              ∧ e.olab = "world")
          ↔ specSuccRel [["hello", "world"]] "hello" "world") :=
  ⟨by decide,
    bigram_adjacency_exact [["hello", "world"]] (by decide) "hello" "world"⟩

/-- Filtering a concatenation of per-key edge blocks down to one key's block:
if the predicate holds on every edge of `u`'s block and fails on every edge
of every other block, the filter returns exactly `u`'s block. -/
theorem filter_flatMap_single (f : String → List BEdge) (p : BEdge → Bool) :
    ∀ (ks : List String) (u : String), ks.Nodup → u ∈ ks →
      (∀ e ∈ f u, p e = true) →
      (∀ u' ∈ ks, u' ≠ u → ∀ e ∈ f u', p e = false) →
      (ks.flatMap f).filter p = f u := by
  intro ks
  induction ks with
  | nil => intro u _ hu; cases hu
  | cons k ks ih =>
    intro u hnd hu hpos hneg
    rw [List.flatMap_cons, List.filter_append]
    rcases List.mem_cons.mp hu with rfl | hu'
    · have h1 : (f u).filter p = f u :=
        List.filter_eq_self.mpr (fun e he => hpos e he)
      have h2 : (ks.flatMap f).filter p = [] := by
        rw [List.filter_eq_nil_iff]
        intro e he
        obtain ⟨u', hu', hee⟩ := List.mem_flatMap.mp he
        have hne : u' ≠ u := by
          rintro rfl
          exact (List.nodup_cons.mp hnd).1 hu'
        simp [hneg u' (List.mem_cons_of_mem _ hu') hne e hee]
      rw [h1, h2, List.append_nil]
    · have hkne : k ≠ u := by
        rintro rfl
        exact (List.nodup_cons.mp hnd).1 hu'
      have h1 : (f k).filter p = [] := by
        rw [List.filter_eq_nil_iff]
        intro e he
        simp [hneg k (List.mem_cons_self k ks) hkne e he]
      rw [h1, ih u (List.nodup_cons.mp hnd).2 hu' hpos
        (fun u' hu'' hne => hneg u' (List.mem_cons_of_mem _ hu'') hne),
        List.nil_append]

/-- Sorting does not change the number of successors. -/
theorem length_sortStrings (l : List String) :
    (sortStrings l).length = l.length :=
  (List.perm_insertionSort _ l).length_eq

/-- Sum of a constant function over a list. -/
theorem sum_map_constant {α : Type} (l : List α) (c : ℝ) :
    (l.map (fun _ => c)).sum = (l.length : ℝ) * c := by
  induction l with
  | nil => simp
  | cons x l ih =>
    simp [ih]
    ring

/-- Claim C6 (confirmed): for every input and flags, every node of the
bigram graph (a key `u` of the final `bigrams` dictionary) has a positive
number `N` of successors; its outgoing edges are exactly `N` in number, each
carrying the weight datum `N` — i.e. the printed weight `-ln(1/N)` — and the
sum of `exp(-weight)` over them is exactly 1. -/
theorem bigram_uniform_weights (inp : Input) (fl : Flags) (u : String)
    (hu : u ∈ (buildBigrams fl (normalizeInput inp)).keys) :
    ∃ su, wordIdOf (makeBigramLmFst inp fl).ids u = some su
      ∧ 0 < ((buildBigrams fl (normalizeInput inp)).succ u).length
      ∧ ((makeBigramLmFst inp fl).edges.filter (fun e => e.src == su)).length
          = ((buildBigrams fl (normalizeInput inp)).succ u).length
      ∧ (∀ e ∈ (makeBigramLmFst inp fl).edges.filter (fun e => e.src == su),
          e.wsucc = ((buildBigrams fl (normalizeInput inp)).succ u).length)
      ∧ (((makeBigramLmFst inp fl).edges.filter (fun e => e.src == su)).map
            (fun e => Real.exp (-(if e.wsucc = 0 then (0 : ℝ)
                else -Real.log (1 / (e.wsucc : ℝ)))))).sum = 1 := by
  have hE : (makeBigramLmFst inp fl).edges
      = (bigramEmitKeys (buildBigrams fl (normalizeInput inp))
          (sortStrings (buildBigrams fl (normalizeInput inp)).keys)
          ([], [])).1 := rfl
  have hI : (makeBigramLmFst inp fl).ids
      = (bigramEmitKeys (buildBigrams fl (normalizeInput inp))
          (sortStrings (buildBigrams fl (normalizeInput inp)).keys)
          ([], [])).2 := rfl
  obtain ⟨⟨t, hids⟩, hkm, hsm, hedges⟩ :=
    emitKeys_spec (buildBigrams fl (normalizeInput inp))
      (sortStrings (buildBigrams fl (normalizeInput inp)).keys) [] []
  have huk : u ∈ sortStrings (buildBigrams fl (normalizeInput inp)).keys :=
    mem_sortStrings.mpr hu
  obtain ⟨su, hsu⟩ := wordIdOf_of_mem (hkm u huk)
  have hN : (buildBigrams fl (normalizeInput inp)).succ u ≠ [] :=
    ((build_inv fl (normalizeInput inp)).2 u).mp hu
  have hNpos : 0 < ((buildBigrams fl (normalizeInput inp)).succ u).length :=
    List.length_pos.mpr hN
  have hNne : ((buildBigrams fl (normalizeInput inp)).succ u).length ≠ 0 := by
    omega
  have hfil : (makeBigramLmFst inp fl).edges.filter (fun e => e.src == su)
      = (sortStrings ((buildBigrams fl (normalizeInput inp)).succ u)).map
          (fun v =>
            ⟨(wordIdOf (bigramEmitKeys (buildBigrams fl (normalizeInput inp))
                (sortStrings (buildBigrams fl (normalizeInput inp)).keys)
                ([], [])).2 u).getD 0,
             (wordIdOf (bigramEmitKeys (buildBigrams fl (normalizeInput inp))
                (sortStrings (buildBigrams fl (normalizeInput inp)).keys)
                ([], [])).2 v).getD 0,
             v, v, ((buildBigrams fl (normalizeInput inp)).succ u).length⟩) := by
    rw [hE, hedges, List.nil_append]
    apply filter_flatMap_single _ _ _ u
      ((List.perm_insertionSort _ _).nodup_iff.mpr
        (build_inv fl (normalizeInput inp)).1)
      huk
    · intro e he
      obtain ⟨v', hv', rfl⟩ := List.mem_map.mp he
      dsimp only
      rw [hsu, Option.getD_some]
      simp
    · intro u' hu' hneq e he
      obtain ⟨v', hv', rfl⟩ := List.mem_map.mp he
      obtain ⟨su', hsu'⟩ := wordIdOf_of_mem (hkm u' hu')
      dsimp only
      rw [hsu', Option.getD_some]
      have hss : su' ≠ su := fun hcontra =>
        hneq (wordIdOf_inj hsu' (hcontra ▸ hsu))
      simp [hss]
  refine ⟨su, by rw [hI]; exact hsu, hNpos, ?_, ?_, ?_⟩
  · rw [hfil, List.length_map, length_sortStrings]
  · intro e he
    rw [hfil] at he
    obtain ⟨v', hv', rfl⟩ := List.mem_map.mp he
    rfl
  · rw [hfil, List.map_map]
    have hcast : (0 : ℝ)
        < (((buildBigrams fl (normalizeInput inp)).succ u).length : ℝ) := by
      exact_mod_cast hNpos
    have hterm : ∀ v' ∈ sortStrings
        ((buildBigrams fl (normalizeInput inp)).succ u),
        ((fun e : BEdge => Real.exp (-(if e.wsucc = 0 then (0 : ℝ)
            else -Real.log (1 / (e.wsucc : ℝ))))) ∘
          (fun v =>
            (⟨(wordIdOf (bigramEmitKeys (buildBigrams fl (normalizeInput inp))
                (sortStrings (buildBigrams fl (normalizeInput inp)).keys)
                ([], [])).2 u).getD 0,
              (wordIdOf (bigramEmitKeys (buildBigrams fl (normalizeInput inp))
                (sortStrings (buildBigrams fl (normalizeInput inp)).keys)
                ([], [])).2 v).getD 0,
              v, v,
              ((buildBigrams fl (normalizeInput inp)).succ u).length⟩ :
                BEdge))) v'
          = 1 / (((buildBigrams fl (normalizeInput inp)).succ u).length : ℝ) := by
      intro v' _
      simp only [Function.comp]
      rw [if_neg hNne, neg_neg, Real.exp_log (by positivity)]
    rw [List.map_congr_left hterm, sum_map_constant, length_sortStrings]
    rw [mul_one_div_cancel (ne_of_gt hcast)]

/-- Witness for `bigram_uniform_weights` at the node "hello" of the graph for
`[["hello","world"]]` with both flags off. -/
theorem bigram_uniform_weights_witness :
    ("hello" ∈ (buildBigrams flagsOff
        (normalizeInput (Input.nested [["hello", "world"]]))).keys)
      ∧ ∃ su, wordIdOf (makeBigramLmFst (Input.nested [["hello", "world"]])
              flagsOff).ids "hello" = some su
          ∧ 0 < ((buildBigrams flagsOff
              (normalizeInput (Input.nested [["hello", "world"]]))).succ
                "hello").length
          ∧ ((makeBigramLmFst (Input.nested [["hello", "world"]])
                flagsOff).edges.filter (fun e => e.src == su)).length
              = ((buildBigrams flagsOff
                  (normalizeInput (Input.nested [["hello", "world"]]))).succ
                    "hello").length
          ∧ (∀ e ∈ (makeBigramLmFst (Input.nested [["hello", "world"]])
                flagsOff).edges.filter (fun e => e.src == su),
              e.wsucc = ((buildBigrams flagsOff
                  (normalizeInput (Input.nested [["hello", "world"]]))).succ
                    "hello").length)
          ∧ (((makeBigramLmFst (Input.nested [["hello", "world"]])
                flagsOff).edges.filter (fun e => e.src == su)).map
                (fun e => Real.exp (-(if e.wsucc = 0 then (0 : ℝ)
                    else -Real.log (1 / (e.wsucc : ℝ)))))).sum = 1 :=
  ⟨by decide,
    bigram_uniform_weights (Input.nested [["hello", "world"]]) flagsOff
      "hello" (by decide)⟩

/-- Witness for `transcript_empty_seq_assert` at `[[], ["a"]]`. -/
theorem transcript_empty_seq_assert_witness :
    ([] ∈ ([[], ["a"]] : List (List String))
        ∨ ([[], ["a"]] : List (List String)) = [])
      ∧ ∃ p, makeTranscriptFst (Input.nested [[], ["a"]]) flagsOff
          = .error p :=
  ⟨Or.inl (by decide),
    transcript_empty_seq_assert flagsOff [[], ["a"]] (Or.inl (by decide))⟩

end Gentle
